import Mathlib

set_option maxHeartbeats 1000000

/-!
Verification of the core algorithms of `scripts/magnetism/coplanar_magnetic_atoms.py`:
the direction resolver / projector, the first-fit plane clusterer, the stable plane
orderer and the block-sign assigner, together with the atom-selection parser.

Real-valued quantities of the script (Python floats) are modelled over `ℚ`, except the
Euclidean norm used for normalisation, which requires a square root and is modelled
over `ℝ`.  Atom indices are the 0-based indices of `enumerate`, as in the script.
-/

/-- A 3-component row vector (the script stores these as numpy arrays of floats). -/
structure Vec3 where
  x : ℚ
  y : ℚ
  z : ℚ
deriving DecidableEq, Repr

/-- A 3×3 lattice matrix given by its three row vectors, as read by `read_poscar`. -/
structure Mat3 where
  r0 : Vec3
  r1 : Vec3
  r2 : Vec3
deriving DecidableEq, Repr

/-- Row-vector times matrix, `v @ m` in numpy: the linear combination of the rows of
`m` with the components of `v` as coefficients. -/
def vecMulMat (v : Vec3) (m : Mat3) : Vec3 :=
  { x := v.x * m.r0.x + v.y * m.r1.x + v.z * m.r2.x
    y := v.x * m.r0.y + v.y * m.r1.y + v.z * m.r2.y
    z := v.x * m.r0.z + v.y * m.r1.z + v.z * m.r2.z }

/-- Dot product of two 3-vectors. -/
def dot (a b : Vec3) : ℚ := a.x * b.x + a.y * b.y + a.z * b.z

/-- Squared Euclidean norm; `np.linalg.norm` is its square root. -/
def normSq (v : Vec3) : ℚ := dot v v

/-- Python's `abs` (and numpy's `np.abs`) on a rational: negate when negative. -/
def ratAbs (q : ℚ) : ℚ := if q < 0 then -q else q

/-- Line 245 of the script:
`n_cart = n_vec @ lattice if np.all(np.abs(n_vec) <= 1) else n_vec`.
If every component of the direction has absolute value at most 1 the direction is
taken to be lattice-fractional and is converted to Cartesian, otherwise it is used
unchanged. -/
def resolve_n_cart (n_vec : Vec3) (lattice : Mat3) : Vec3 :=
  if ratAbs n_vec.x ≤ 1 ∧ ratAbs n_vec.y ≤ 1 ∧ ratAbs n_vec.z ≤ 1 then
    vecMulMat n_vec lattice
  else n_vec

/-- Lines 245-248 of the script: resolve the direction, normalise it by its Euclidean
norm (`n_hat = n_cart / np.linalg.norm(n_cart)`), convert every fractional coordinate
to Cartesian (`cart = frac @ lattice`) and project onto `n_hat` (`proj = cart @ n_hat`).
The script performs no zero-norm check whatsoever: numpy division of a vector by the
scalar `0.0` emits a warning and produces non-finite components, and the script keeps
running, so this function is total (over the reals, the division-by-zero junk value
differs from numpy's, but no theorem below relies on the projection values at zero
norm). -/
noncomputable def projections (n_vec : Vec3) (lattice : Mat3) (frac : List Vec3) :
    List ℝ :=
  let n_cart := resolve_n_cart n_vec lattice
  let nrm : ℝ := Real.sqrt ((normSq n_cart : ℚ) : ℝ)
  frac.map fun f =>
    let c := vecMulMat f lattice
    (c.x : ℝ) * ((n_cart.x : ℝ) / nrm) + (c.y : ℝ) * ((n_cart.y : ℝ) / nrm) +
      (c.z : ℝ) * ((n_cart.z : ℝ) / nrm)

/-- One plane record of the clustering loop: `planes[pid] = [ref_proj, [atom_idx]]`.
The script keys planes by consecutive integers `0, 1, 2, …` in a dict, which iterates
in insertion order; we represent the dict as a list in creation order, the plane id
being the list position. -/
structure Plane where
  ref : ℚ
  members : List ℕ
deriving DecidableEq, Repr

/-- Line 254: `next((k for k,(ref,_) in planes.items() if abs(p-ref)<tol), None)`.
Index of the first plane, in creation order, whose reference value lies strictly
within `tol` of `p`. -/
def firstMatch (tol p : ℚ) : List Plane → Option ℕ
  | [] => none
  | pl :: rest =>
      if ratAbs (p - pl.ref) < tol then some 0
      else (firstMatch tol p rest).map (· + 1)

/-- Line 257: `planes[pid][1].append(i)` — append atom `i` to the member list of the
plane at position `k`, leaving every reference value untouched. -/
def appendAt : List Plane → ℕ → ℕ → List Plane
  | [], _, _ => []
  | pl :: rest, 0, i => { pl with members := pl.members ++ [i] } :: rest
  | pl :: rest, k + 1, i => pl :: appendAt rest k i

/-- Lines 254-257, the body of the clustering loop for one selected atom `i` with
projection `p`: find the first matching plane; if none exists create a new plane
`[p, []]` at the next id; then append `i` to the chosen plane's member list. -/
def clusterStep (tol : ℚ) (planes : List Plane) (i : ℕ) (p : ℚ) : List Plane :=
  match firstMatch tol p planes with
  | some k => appendAt planes k i
  | none => appendAt (planes ++ [{ ref := p, members := [] }]) planes.length i

/-- Lines 251-257: `for i, p in enumerate(proj): if not mask[i]: continue; …` —
a single pass over the atoms in original structural order, skipping unselected ones,
threading the plane list through `clusterStep`.  `i` is the index of the next atom. -/
def clusterFrom (tol : ℚ) (i : ℕ) : List ℚ → List Bool → List Plane → List Plane
  | [], _, planes => planes
  | _, [], planes => planes
  | p :: ps, b :: bs, planes =>
      clusterFrom tol (i + 1) ps bs (if b then clusterStep tol planes i p else planes)

/-- The complete clustering pass of lines 250-257, starting from the empty dict. -/
def cluster (tol : ℚ) (proj : List ℚ) (mask : List Bool) : List Plane :=
  clusterFrom tol 0 proj mask []

/-- The member lists of all planes, concatenated. -/
def flatMembers (planes : List Plane) : List ℕ := (planes.map Plane.members).flatten

/-- The indices the clustering pass visits and does not skip: `i + k` for every
position `k` (within both lists) whose mask entry is `true`. -/
def selFrom (i : ℕ) : List ℚ → List Bool → List ℕ
  | [], _ => []
  | _, [] => []
  | _ :: ps, b :: bs => (if b then [i] else []) ++ selFrom (i + 1) ps bs

/-- The list of selected atom indices, in structural order. -/
def selectedIdx (proj : List ℚ) (mask : List Bool) : List ℕ := selFrom 0 proj mask

/-- One singleton plane per selected atom, in structural order: what the clustering
pass produces when no atom can ever match an existing plane (which is the case for
any tolerance ≤ 0, since `abs` is nonnegative and the comparison is strict). -/
def singletonPlanes (i : ℕ) : List ℚ → List Bool → List Plane
  | [], _ => []
  | _, [] => []
  | p :: ps, b :: bs =>
      (if b then [{ ref := p, members := [i] }] else []) ++ singletonPlanes (i + 1) ps bs

/-- Line 259: `ordered = sorted(planes.items(), key=lambda kv: kv[1][0])`.
`planes.items()` pairs each plane with its creation id (here `List.enum`), and
Python's `sorted` is a stable ascending sort by the reference value, modelled by
insertion sort (a stable sort). -/
def orderPlanes (planes : List Plane) : List (ℕ × Plane) :=
  List.insertionSort (fun a b : ℕ × Plane => a.2.ref ≤ b.2.ref) planes.enum

/-- Lexicographic comparison "smaller reference value, or equal reference values and
earlier creation id" on id-tagged planes: what a stable ascending sort by reference
value guarantees between any element and any later element. -/
def planeLex (a b : ℕ × Plane) : Prop :=
  a.2.ref < b.2.ref ∨ (a.2.ref = b.2.ref ∧ a.1 < b.1)

/-- Line 265: `sign = +1 if (plane_id//L)%2 == 0 else -1`, with Python's
floor division `//` (`Int.fdiv`) and nonnegative-remainder `%` (`Int.emod`);
`plane_id` is the 0-based sorted rank. -/
def pySign (r : ℕ) (L : ℤ) : ℤ :=
  if (Int.fdiv (r : ℤ) L) % 2 = 0 then 1 else -1

/-- Line 267 iterated over one member list: `magmom_values[idx] = sign * M` for each
`idx` in the plane. -/
def setAll (v : List ℚ) (idxs : List ℕ) (val : ℚ) : List ℚ :=
  idxs.foldl (fun w j => w.set j val) v

/-- Lines 264-267, the sign-assignment loop over the ordered planes: rank `r` is the
`enumerate` counter, each plane writes `pySign r L * M` into the slots of its
members. -/
def momentsFrom (M : ℚ) (L : ℤ) : ℕ → List Plane → List ℚ → List ℚ
  | _, [], v => v
  | r, pl :: rest, v => momentsFrom M L (r + 1) rest (setAll v pl.members (pySign r L * M))

/-- The final `magmom_values` array: start from `np.zeros(natoms)` and run the
assignment loop over the ordered planes (the loop uses only `a[1]`, the plane record,
of each `(pid, plane)` item). -/
def momentsArray (natoms : ℕ) (M : ℚ) (L : ℤ) (ordered : List (ℕ × Plane)) : List ℚ :=
  momentsFrom M L 0 (ordered.map Prod.snd) (List.replicate natoms (0 : ℚ))

/-- The one way the sign-assignment loop can abort: Python raises `ZeroDivisionError`
from `plane_id//L` when `L = 0`, which happens iff the loop body runs at least once. -/
inductive AssignError where
  | zeroDivisionError
deriving DecidableEq, Repr

/-- Lines 262-269 as a fallible computation: with `L = 0` and at least one plane the
first loop iteration raises `ZeroDivisionError`; otherwise the array is produced.
The script contains no `L < 1` validation of any kind (lines 180-184 only parse the
integer). -/
def assignMoments (natoms : ℕ) (M : ℚ) (L : ℤ) (ordered : List (ℕ × Plane)) :
    Except AssignError (List ℚ) :=
  if L = 0 ∧ ordered ≠ [] then .error .zeroDivisionError
  else .ok (momentsArray natoms M L ordered)

/-- Failure of the selection parser: numpy raises `IndexError` from
`mask[idx] = True` when an index is out of bounds (`< -natoms` or `≥ natoms`). -/
inductive SelError where
  | indexError
deriving DecidableEq, Repr

/-- numpy boolean-mask assignment `mask[i] = True` for a single (possibly negative)
integer index: indices in `[0, n)` address directly, indices in `[-n, 0)` address
from the end, anything else raises `IndexError`. -/
def npSetTrue (mask : List Bool) (i : ℤ) : Except SelError (List Bool) :=
  if 0 ≤ i ∧ i < (mask.length : ℤ) then .ok (mask.set i.toNat true)
  else if -(mask.length : ℤ) ≤ i ∧ i < 0 then
    .ok (mask.set (i + (mask.length : ℤ)).toNat true)
  else .error .indexError

/-- Python `str.split()` restricted to ASCII input: split on runs of whitespace,
dropping empty pieces.  The accumulator holds the current token reversed. -/
def splitWsAux : List Char → List Char → List String
  | [], acc => if acc = [] then [] else [String.mk acc.reverse]
  | c :: cs, acc =>
      if c.isWhitespace then
        if acc = [] then splitWsAux cs [] else String.mk acc.reverse :: splitWsAux cs []
      else splitWsAux cs (c :: acc)

/-- Python `atom_str.split()`. -/
def pySplit (s : String) : List String := splitWsAux s.toList []

/-- Python `str.lower()` for ASCII strings. -/
def pyLower (s : String) : String := String.mk (s.toList.map Char.toLower)

/-- Python `str.isdigit()` for ASCII strings: nonempty and all characters digits. -/
def pyIsDigit (s : String) : Bool := s.toList ≠ [] && s.toList.all Char.isDigit

/-- Python `int(x)` for a digit string. -/
def pyStrToNat (s : String) : ℕ :=
  s.toList.foldl (fun n c => 10 * n + (c.toNat - 48)) 0

/-- Lines 123-140, `parse_atom_selection(atom_str, elems)`:
`"all"` (case-insensitively) selects every atom; if every whitespace-separated token
is a digit string the tokens are read as 1-based indices and written into a zero mask
via numpy assignment (`int(x)-1`, so the token `"0"` becomes numpy index `-1`);
otherwise the tokens are treated as element labels and the mask keeps the atoms whose
label occurs among them. -/
def parse_atom_selection (atomStr : String) (elems : List String) :
    Except SelError (List Bool) :=
  let natoms := elems.length
  if pyLower atomStr = "all" then .ok (List.replicate natoms true)
  else
    let parts := pySplit atomStr
    if parts.all pyIsDigit then
      let idx : List ℤ := parts.map fun t => (pyStrToNat t : ℤ) - 1
      idx.foldlM npSetTrue (List.replicate natoms false)
    else
      .ok (elems.map fun e => decide (e ∈ parts))

/-- A fixed diagonal test lattice with rows `(2,0,0)`, `(0,3,0)`, `(0,0,4)` used in
concrete instances below. -/
def latticeA : Mat3 :=
  { r0 := ⟨2, 0, 0⟩, r1 := ⟨0, 3, 0⟩, r2 := ⟨0, 0, 4⟩ }

theorem ratAbs_eq_abs (q : ℚ) : ratAbs q = |q| := by
  rcases lt_or_le q 0 with h | h
  · simp [ratAbs, h, abs_of_neg h]
  · simp [ratAbs, not_lt.mpr h, abs_of_nonneg h]

theorem firstMatch_lt {tol p : ℚ} :
    ∀ {planes : List Plane} {k : ℕ}, firstMatch tol p planes = some k →
      k < planes.length := by
  intro planes
  induction planes with
  | nil => intro k h; simp [firstMatch] at h
  | cons pl rest ih =>
      intro k h
      by_cases hm : ratAbs (p - pl.ref) < tol
      · simp [firstMatch, hm] at h
        simp
        omega
      · simp [firstMatch, hm] at h
        obtain ⟨k0, hk0, rfl⟩ := h
        have := ih hk0
        simp
        omega

theorem firstMatch_eq_some {tol p : ℚ} :
    ∀ {planes : List Plane} {k : ℕ} {pl : Plane},
      planes[k]? = some pl → ratAbs (p - pl.ref) < tol →
      (∀ k2 pl2, k2 < k → planes[k2]? = some pl2 → ¬ ratAbs (p - pl2.ref) < tol) →
      firstMatch tol p planes = some k := by
  intro planes
  induction planes with
  | nil => intro k pl h; simp at h
  | cons pl0 rest ih =>
      intro k pl hget hlt hmin
      cases k with
      | zero =>
          simp at hget
          subst hget
          simp [firstMatch, hlt]
      | succ k =>
          have h0 : ¬ ratAbs (p - pl0.ref) < tol :=
            hmin 0 pl0 (Nat.succ_pos k) (by simp)
          simp at hget
          have := ih hget hlt
            (fun k2 pl2 h h2 => hmin (k2 + 1) pl2 (Nat.succ_lt_succ h) (by simpa using h2))
          simp [firstMatch, h0, this]

theorem firstMatch_eq_none {tol p : ℚ} :
    ∀ {planes : List Plane}, (∀ pl ∈ planes, tol ≤ ratAbs (p - pl.ref)) →
      firstMatch tol p planes = none := by
  intro planes
  induction planes with
  | nil => intro _; rfl
  | cons pl0 rest ih =>
      intro h
      have h0 : ¬ ratAbs (p - pl0.ref) < tol :=
        not_lt.mpr (h pl0 (List.mem_cons_self pl0 rest))
      simp [firstMatch, h0, ih fun pl hpl => h pl (List.mem_cons_of_mem pl0 hpl)]

theorem appendAt_map_ref :
    ∀ (planes : List Plane) (k i : ℕ),
      (appendAt planes k i).map Plane.ref = planes.map Plane.ref := by
  intro planes
  induction planes with
  | nil => intro k i; rfl
  | cons pl rest ih =>
      intro k i
      cases k with
      | zero => simp [appendAt]
      | succ k => simp [appendAt, ih]

theorem appendAt_getElem_self :
    ∀ {planes : List Plane} {k : ℕ} {pl : Plane} (i : ℕ), planes[k]? = some pl →
      (appendAt planes k i)[k]? = some { ref := pl.ref, members := pl.members ++ [i] } := by
  intro planes
  induction planes with
  | nil => intro k pl i h; simp at h
  | cons pl0 rest ih =>
      intro k pl i h
      cases k with
      | zero => simp at h; subst h; simp [appendAt]
      | succ k => simp at h; simpa [appendAt] using ih i h

theorem appendAt_append_length :
    ∀ (planes : List Plane) (p : ℚ) (i : ℕ),
      appendAt (planes ++ [{ ref := p, members := [] }]) planes.length i
        = planes ++ [{ ref := p, members := [i] }] := by
  intro planes
  induction planes with
  | nil => intro p i; rfl
  | cons pl rest ih => intro p i; simp [appendAt, ih]

theorem clusterStep_of_some {tol p : ℚ} {planes : List Plane} {k : ℕ} (i : ℕ)
    (h : firstMatch tol p planes = some k) :
    clusterStep tol planes i p = appendAt planes k i := by
  simp [clusterStep, h]

theorem clusterStep_of_none {tol p : ℚ} {planes : List Plane} (i : ℕ)
    (h : firstMatch tol p planes = none) :
    clusterStep tol planes i p = planes ++ [{ ref := p, members := [i] }] := by
  simp [clusterStep, h, appendAt_append_length]

/-- C1: plane clustering is first-fit in a single pass over the selected atoms in
original structural order.  For an atom `i` with projection `p`: if `k` is the first
plane (in creation order) whose reference value `ref` satisfies `ratAbs (p - ref) < tol`
(strict, so a difference of exactly `tol` does not match), the loop body appends `i`
to plane `k`'s member list, changing no reference value; if no plane is strictly
within tolerance a new plane with reference value `p` and sole member `i` is appended;
and the pass visits atoms in order, skipping unselected ones. -/
theorem C1_first_fit (tol p : ℚ) (i : ℕ) (planes : List Plane) :
    (∀ k pl, planes[k]? = some pl → ratAbs (p - pl.ref) < tol →
      (∀ k2 pl2, k2 < k → planes[k2]? = some pl2 → ¬ ratAbs (p - pl2.ref) < tol) →
      clusterStep tol planes i p = appendAt planes k i ∧
      (appendAt planes k i).map Plane.ref = planes.map Plane.ref ∧
      (appendAt planes k i)[k]? = some { ref := pl.ref, members := pl.members ++ [i] }) ∧
    ((∀ pl ∈ planes, tol ≤ ratAbs (p - pl.ref)) →
      clusterStep tol planes i p = planes ++ [{ ref := p, members := [i] }]) ∧
    (∀ ps bs acc j, clusterFrom tol j (p :: ps) (true :: bs) acc
        = clusterFrom tol (j + 1) ps bs (clusterStep tol acc j p)) ∧
    (∀ ps bs acc j, clusterFrom tol j (p :: ps) (false :: bs) acc
        = clusterFrom tol (j + 1) ps bs acc) := by
  refine ⟨?_, ?_, ?_, ?_⟩
  · intro k pl hget hlt hmin
    exact ⟨clusterStep_of_some i (firstMatch_eq_some hget hlt hmin),
      appendAt_map_ref planes k i, appendAt_getElem_self i hget⟩
  · intro h
    exact clusterStep_of_none i (firstMatch_eq_none h)
  · intro ps bs acc j; rfl
  · intro ps bs acc j; rfl

/-- Witness for C1: with `tol = 2` the atom with projection `1` joins the first plane
(reference `0`, distance `1 < 2`) even though the second plane (reference `1`) is
nearer; with `tol = 1` a distance of exactly `tol` does not match and a new plane is
created. -/
theorem C1_first_fit_witness :
    clusterStep 2 [⟨0, [0]⟩, ⟨1, [1]⟩] 5 1 = appendAt [⟨0, [0]⟩, ⟨1, [1]⟩] 0 5 ∧
    clusterStep 1 [⟨0, [0]⟩] 7 1 = [⟨0, [0]⟩, ⟨1, [7]⟩] :=
  ⟨((C1_first_fit 2 1 5 [⟨0, [0]⟩, ⟨1, [1]⟩]).1 0 ⟨0, [0]⟩ rfl
      (by norm_num [ratAbs])
      (fun k2 pl2 h _ => absurd h (Nat.not_lt_zero k2))).1,
   (C1_first_fit 1 1 7 [⟨0, [0]⟩]).2.1 (by
      intro pl hpl
      simp at hpl
      subst hpl
      norm_num [ratAbs])⟩

/-- C5: the direction resolver treats the direction as lattice-fractional (converting
via `v @ lattice`) exactly when every component has absolute value at most 1, and
otherwise uses it unchanged as Cartesian; `[1,0,0]` sits on the boundary and is
converted (here against a diagonal lattice with rows 2,3,4, so conversion is visible),
while `[1.0001,0,0]` is used unchanged. -/
theorem C5_direction_heuristic (v : Vec3) (lattice : Mat3) :
    (ratAbs v.x ≤ 1 ∧ ratAbs v.y ≤ 1 ∧ ratAbs v.z ≤ 1 →
      resolve_n_cart v lattice = vecMulMat v lattice) ∧
    (¬(ratAbs v.x ≤ 1 ∧ ratAbs v.y ≤ 1 ∧ ratAbs v.z ≤ 1) →
      resolve_n_cart v lattice = v) ∧
    resolve_n_cart ⟨1, 0, 0⟩ latticeA = ⟨2, 0, 0⟩ ∧
    resolve_n_cart ⟨10001/10000, 0, 0⟩ latticeA = ⟨10001/10000, 0, 0⟩ := by
  refine ⟨fun h => by simp [resolve_n_cart, h], fun h => by simp [resolve_n_cart, h],
    ?_, ?_⟩
  · norm_num [resolve_n_cart, ratAbs, vecMulMat, latticeA]
  · norm_num [resolve_n_cart, ratAbs, latticeA]

/-- Witness for C5: the boundary direction `[1,0,0]` takes the fractional branch and
a direction with a component of absolute value above 1 takes the Cartesian branch. -/
theorem C5_direction_heuristic_witness :
    resolve_n_cart ⟨1, 0, 0⟩ latticeA = vecMulMat ⟨1, 0, 0⟩ latticeA ∧
    resolve_n_cart ⟨2, 0, 0⟩ latticeA = ⟨2, 0, 0⟩ :=
  ⟨(C5_direction_heuristic ⟨1, 0, 0⟩ latticeA).1 (by norm_num [ratAbs]),
   (C5_direction_heuristic ⟨2, 0, 0⟩ latticeA).2.1 (by norm_num [ratAbs])⟩

theorem flatMembers_append (l1 l2 : List Plane) :
    flatMembers (l1 ++ l2) = flatMembers l1 ++ flatMembers l2 := by
  simp [flatMembers]

theorem flatMembers_appendAt :
    ∀ {planes : List Plane} {k : ℕ} (i : ℕ), k < planes.length →
      (flatMembers (appendAt planes k i)).Perm (i :: flatMembers planes) := by
  intro planes
  induction planes with
  | nil => intro k i h; simp at h
  | cons pl rest ih =>
      intro k i h
      have h2 : flatMembers (pl :: rest) = pl.members ++ flatMembers rest := by
        simp [flatMembers]
      cases k with
      | zero =>
          have h1 : flatMembers (appendAt (pl :: rest) 0 i)
              = pl.members ++ (i :: flatMembers rest) := by
            simp [appendAt, flatMembers]
          rw [h1, h2]
          exact List.perm_middle
      | succ k =>
          have hk : k < rest.length := by simpa using h
          have h1 : flatMembers (appendAt (pl :: rest) (k + 1) i)
              = pl.members ++ flatMembers (appendAt rest k i) := by
            simp [appendAt, flatMembers]
          rw [h1, h2]
          exact ((ih i hk).append_left pl.members).trans List.perm_middle

theorem flatMembers_clusterStep (tol p : ℚ) (planes : List Plane) (i : ℕ) :
    (flatMembers (clusterStep tol planes i p)).Perm (i :: flatMembers planes) := by
  cases hfm : firstMatch tol p planes with
  | some k =>
      rw [clusterStep_of_some i hfm]
      exact flatMembers_appendAt i (firstMatch_lt hfm)
  | none =>
      rw [clusterStep_of_none i hfm, flatMembers_append]
      simp [flatMembers]

theorem flatMembers_clusterFrom (tol : ℚ) :
    ∀ (ps : List ℚ) (bs : List Bool) (i : ℕ) (acc : List Plane),
      (flatMembers (clusterFrom tol i ps bs acc)).Perm
        (flatMembers acc ++ selFrom i ps bs) := by
  intro ps
  induction ps with
  | nil => intro bs i acc; cases bs <;> simp [clusterFrom, selFrom]
  | cons p ps ih =>
      intro bs i acc
      cases bs with
      | nil => simp [clusterFrom, selFrom]
      | cons b bs =>
          cases b with
          | false => simpa [clusterFrom, selFrom] using ih bs (i + 1) acc
          | true =>
              have hsel : selFrom i (p :: ps) (true :: bs) = i :: selFrom (i + 1) ps bs := by
                simp [selFrom]
              show (flatMembers (clusterFrom tol (i + 1) ps bs (clusterStep tol acc i p))).Perm _
              refine ((ih bs (i + 1) (clusterStep tol acc i p)).trans ?_)
              refine ((flatMembers_clusterStep tol p acc i).append_right _).trans ?_
              rw [hsel]
              exact List.perm_middle.symm

theorem selFrom_ge :
    ∀ {ps : List ℚ} {bs : List Bool} {i j : ℕ}, j ∈ selFrom i ps bs → i ≤ j := by
  intro ps
  induction ps with
  | nil => intro bs i j h; simp [selFrom] at h
  | cons p ps ih =>
      intro bs i j h
      cases bs with
      | nil => simp [selFrom] at h
      | cons b bs =>
          simp [selFrom] at h
          rcases h with h | h
          · rcases h with ⟨-, rfl⟩; exact le_refl j
          · exact le_trans (Nat.le_succ i) (ih h)

theorem selFrom_nodup :
    ∀ (ps : List ℚ) (bs : List Bool) (i : ℕ), (selFrom i ps bs).Nodup := by
  intro ps
  induction ps with
  | nil => intro bs i; cases bs <;> simp [selFrom]
  | cons p ps ih =>
      intro bs i
      cases bs with
      | nil => simp [selFrom]
      | cons b bs =>
          cases b with
          | false => simpa [selFrom] using ih bs (i + 1)
          | true =>
              simp [selFrom]
              exact ⟨fun h => by have := selFrom_ge h; omega, ih bs (i + 1)⟩

theorem mem_selFrom :
    ∀ {ps : List ℚ} {bs : List Bool} {i j : ℕ},
      j ∈ selFrom i ps bs ↔ ∃ k, bs[k]? = some true ∧ k < ps.length ∧ j = i + k := by
  intro ps
  induction ps with
  | nil =>
      intro bs i j
      simp [selFrom]
  | cons p ps ih =>
      intro bs i j
      cases bs with
      | nil => simp [selFrom]
      | cons b bs =>
          simp only [selFrom, List.mem_append, ih]
          constructor
          · intro h
            rcases h with h | ⟨k, hk, hlt, rfl⟩
            · cases b with
              | false => simp at h
              | true =>
                  simp at h
                  exact ⟨0, by simp, by simp, by omega⟩
            · exact ⟨k + 1, by simpa using hk, by simpa using Nat.succ_lt_succ hlt, by omega⟩
          · rintro ⟨k, hk, hlt, rfl⟩
            cases k with
            | zero =>
                left
                have hb : b = true := by simpa using hk
                simp [hb]
            | succ k =>
                right
                exact ⟨k, by simpa using hk, by simpa using hlt, by omega⟩

theorem clusterFrom_all_false (tol : ℚ) :
    ∀ (ps : List ℚ) (bs : List Bool) (i : ℕ) (acc : List Plane),
      (∀ b ∈ bs, b = false) → clusterFrom tol i ps bs acc = acc := by
  intro ps
  induction ps with
  | nil => intro bs i acc _; cases bs <;> rfl
  | cons p ps ih =>
      intro bs i acc h
      cases bs with
      | nil => rfl
      | cons b bs =>
          have hb : b = false := h b (List.mem_cons_self b bs)
          subst hb
          simpa [clusterFrom] using ih bs (i + 1) acc fun x hx => h x (List.mem_cons_of_mem _ hx)

/-- C3: the planes produced by the clusterer partition the selected atoms.  The
concatenated member lists are a permutation of the selected indices (which are
exactly the positions where the mask holds and carry no duplicates), so every
selected atom lies in exactly one plane's member list and every unselected atom in
none; and an all-false mask yields zero planes. -/
theorem C3_partition (tol : ℚ) (proj : List ℚ) (mask : List Bool)
    (h : proj.length = mask.length) :
    (flatMembers (cluster tol proj mask)).Perm (selectedIdx proj mask) ∧
    (∀ j, j ∈ selectedIdx proj mask ↔ mask[j]? = some true) ∧
    (∀ j, (flatMembers (cluster tol proj mask)).count j
        = if mask[j]? = some true then 1 else 0) ∧
    ((∀ b ∈ mask, b = false) → cluster tol proj mask = []) := by
  have hperm : (flatMembers (cluster tol proj mask)).Perm (selectedIdx proj mask) := by
    simpa [flatMembers, selectedIdx] using flatMembers_clusterFrom tol proj mask 0 []
  have hmem : ∀ j, j ∈ selectedIdx proj mask ↔ mask[j]? = some true := by
    intro j
    rw [selectedIdx, mem_selFrom]
    constructor
    · rintro ⟨k, hk, hlt, rfl⟩
      simpa using hk
    · intro hj
      have hjlt : j < mask.length := by
        by_contra hge
        rw [List.getElem?_eq_none (by omega)] at hj
        exact Option.noConfusion hj
      exact ⟨j, hj, by omega, by omega⟩
  refine ⟨hperm, hmem, ?_, fun hall => clusterFrom_all_false tol proj mask 0 [] hall⟩
  intro j
  rw [hperm.count_eq]
  by_cases hj : mask[j]? = some true
  · rw [if_pos hj]
    exact List.count_eq_one_of_mem (selFrom_nodup proj mask 0) ((hmem j).mpr hj)
  · rw [if_neg hj]
    exact List.count_eq_zero_of_not_mem fun hmem2 => hj ((hmem j).mp hmem2)

/-- Witness for C3: a concrete three-atom structure with the middle atom unselected
produces planes whose members are exactly the two selected indices, and an all-false
mask produces zero planes. -/
theorem C3_partition_witness :
    (flatMembers (cluster 1 [0, 0, 5] [true, false, true])).Perm
      (selectedIdx [0, 0, 5] [true, false, true]) ∧
    cluster 1 [0, (0 : ℚ)] [false, false] = [] :=
  ⟨(C3_partition 1 [0, 0, 5] [true, false, true] (by decide)).1,
   (C3_partition 1 [0, (0 : ℚ)] [false, false] (by decide)).2.2.2 (by decide)⟩

theorem planeLex_refLe {a b : ℕ × Plane} (h : planeLex a b) : a.2.ref ≤ b.2.ref := by
  rcases h with h | ⟨h, -⟩
  · exact le_of_lt h
  · exact le_of_eq h

theorem pairwise_lex_orderedInsert (a : ℕ × Plane) :
    ∀ (l : List (ℕ × Plane)), l.Pairwise planeLex → (∀ b ∈ l, a.1 < b.1) →
      (List.orderedInsert (fun a b : ℕ × Plane => a.2.ref ≤ b.2.ref) a l).Pairwise
        planeLex := by
  intro l
  induction l with
  | nil => intro _ _; simp [planeLex]
  | cons c l ih =>
      intro hl ha
      rw [List.pairwise_cons] at hl
      by_cases hac : a.2.ref ≤ c.2.ref
      · rw [List.orderedInsert, if_pos hac, List.pairwise_cons]
        refine ⟨?_, List.pairwise_cons.mpr hl⟩
        intro x hx
        rcases List.mem_cons.mp hx with rfl | hx2
        · rcases lt_or_eq_of_le hac with h | h
          · exact Or.inl h
          · exact Or.inr ⟨h, ha x (List.mem_cons_self x l)⟩
        · have hcx : c.2.ref ≤ x.2.ref := planeLex_refLe (hl.1 x hx2)
          rcases lt_or_eq_of_le (le_trans hac hcx) with h | h
          · exact Or.inl h
          · exact Or.inr ⟨h, ha x (List.mem_cons_of_mem c hx2)⟩
      · rw [List.orderedInsert, if_neg hac, List.pairwise_cons]
        have hca : c.2.ref < a.2.ref := lt_of_not_le hac
        refine ⟨?_, ih hl.2 fun b hb => ha b (List.mem_cons_of_mem c hb)⟩
        intro x hx
        rcases (List.mem_orderedInsert _).mp hx with rfl | hx2
        · exact Or.inl hca
        · exact hl.1 x hx2

theorem pairwise_lex_insertionSort :
    ∀ (l : List (ℕ × Plane)), l.Pairwise (fun a b : ℕ × Plane => a.1 < b.1) →
      (List.insertionSort (fun a b : ℕ × Plane => a.2.ref ≤ b.2.ref) l).Pairwise
        planeLex := by
  intro l
  induction l with
  | nil => intro _; simp
  | cons a l ih =>
      intro h
      rw [List.pairwise_cons] at h
      rw [List.insertionSort]
      refine pairwise_lex_orderedInsert a _ (ih h.2) ?_
      intro b hb
      exact h.1 b ((List.perm_insertionSort _ l).mem_iff.mp hb)

theorem enum_pairwise_fst_lt (l : List Plane) :
    l.enum.Pairwise (fun a b : ℕ × Plane => a.1 < b.1) := by
  have h1 : (l.enum.map Prod.fst).Pairwise (fun a b : ℕ => a < b) := by
    rw [List.enum_map_fst]
    exact List.pairwise_lt_range l.length
  exact List.pairwise_map.mp h1

/-- C4: the ordered plane sequence is the creation-order list of planes stably sorted
by reference value: it is a permutation of the id-tagged planes (so ranks are exactly
the positions `0 … P-1` of a list of the same length), reference values are
non-decreasing along it, and between any two positions the pair satisfies `planeLex` —
strictly smaller reference value, or equal reference values with strictly increasing
creation id, which is exactly stability for ties. -/
theorem C4_stable_order (planes : List Plane) :
    (orderPlanes planes).Perm planes.enum ∧
    (orderPlanes planes).length = planes.length ∧
    (orderPlanes planes).Pairwise (fun a b : ℕ × Plane => a.2.ref ≤ b.2.ref) ∧
    (orderPlanes planes).Pairwise planeLex := by
  have hlex : (orderPlanes planes).Pairwise planeLex :=
    pairwise_lex_insertionSort planes.enum (enum_pairwise_fst_lt planes)
  have hperm : (orderPlanes planes).Perm planes.enum :=
    List.perm_insertionSort _ planes.enum
  exact ⟨hperm, by rw [hperm.length_eq, List.enum_length],
    hlex.imp fun h => planeLex_refLe h, hlex⟩

theorem setAll_cons (v : List ℚ) (j : ℕ) (idxs : List ℕ) (x : ℚ) :
    setAll v (j :: idxs) x = setAll (v.set j x) idxs x := rfl

theorem length_setAll :
    ∀ (idxs : List ℕ) (v : List ℚ) (x : ℚ), (setAll v idxs x).length = v.length := by
  intro idxs
  induction idxs with
  | nil => intro v x; rfl
  | cons k rest ih => intro v x; rw [setAll_cons, ih, List.length_set]

theorem getElem?_setAll_not_mem :
    ∀ {idxs : List ℕ} {j : ℕ} (v : List ℚ) (x : ℚ), j ∉ idxs →
      (setAll v idxs x)[j]? = v[j]? := by
  intro idxs
  induction idxs with
  | nil => intro j v x _; rfl
  | cons k rest ih =>
      intro j v x h
      simp only [List.mem_cons, not_or] at h
      rw [setAll_cons, ih _ _ h.2, List.getElem?_set_ne fun hc => h.1 hc.symm]

theorem getElem?_setAll_mem :
    ∀ {idxs : List ℕ} {j : ℕ} (v : List ℚ) (x : ℚ), j ∈ idxs → j < v.length →
      (setAll v idxs x)[j]? = some x := by
  intro idxs
  induction idxs with
  | nil => intro j v x h _; simp at h
  | cons k rest ih =>
      intro j v x hmem hlt
      by_cases hr : j ∈ rest
      · rw [setAll_cons]
        exact ih _ _ hr (by rw [List.length_set]; exact hlt)
      · have hjk : j = k := by
          rcases List.mem_cons.mp hmem with h | h
          · exact h
          · exact absurd h hr
        subst hjk
        rw [setAll_cons, getElem?_setAll_not_mem _ _ hr, List.getElem?_set_self hlt]

theorem momentsFrom_cons (M : ℚ) (L : ℤ) (r : ℕ) (pl : Plane) (rest : List Plane)
    (v : List ℚ) :
    momentsFrom M L r (pl :: rest) v
      = momentsFrom M L (r + 1) rest (setAll v pl.members (pySign r L * M)) := rfl

theorem length_momentsFrom (M : ℚ) (L : ℤ) :
    ∀ (rest : List Plane) (r : ℕ) (v : List ℚ),
      (momentsFrom M L r rest v).length = v.length := by
  intro rest
  induction rest with
  | nil => intro r v; rfl
  | cons pl rest ih => intro r v; rw [momentsFrom_cons, ih, length_setAll]

theorem getElem?_momentsFrom_not_mem (M : ℚ) (L : ℤ) :
    ∀ (rest : List Plane) (r : ℕ) (v : List ℚ) {j : ℕ},
      (∀ pl ∈ rest, j ∉ pl.members) → (momentsFrom M L r rest v)[j]? = v[j]? := by
  intro rest
  induction rest with
  | nil => intro r v j _; rfl
  | cons pl rest ih =>
      intro r v j h
      rw [momentsFrom_cons, ih _ _ fun q hq => h q (List.mem_cons_of_mem pl hq),
        getElem?_setAll_not_mem _ _ (h pl (List.mem_cons_self pl rest))]

theorem getElem?_momentsFrom_unique (M : ℚ) (L : ℤ) :
    ∀ (pre : List Plane) (pl : Plane) (post : List Plane) (r : ℕ) (v : List ℚ) {j : ℕ},
      j ∈ pl.members → (∀ q ∈ pre, j ∉ q.members) → (∀ q ∈ post, j ∉ q.members) →
      j < v.length →
      (momentsFrom M L r (pre ++ pl :: post) v)[j]?
        = some (pySign (r + pre.length) L * M) := by
  intro pre
  induction pre with
  | nil =>
      intro pl post r v j hj _ hpost hlt
      rw [List.nil_append, momentsFrom_cons,
        getElem?_momentsFrom_not_mem M L post _ _ hpost,
        getElem?_setAll_mem _ _ hj hlt]
      simp
  | cons q pre ih =>
      intro pl post r v j hj hpre hpost hlt
      rw [List.cons_append, momentsFrom_cons]
      have h1 := ih pl post (r + 1) (setAll v q.members (pySign r L * M)) hj
        (fun q2 hq2 => hpre q2 (List.mem_cons_of_mem q hq2)) hpost
        (by rw [length_setAll]; exact hlt)
      have harg : r + 1 + pre.length = r + (q :: pre).length := by simp; omega
      rw [harg] at h1
      exact h1

theorem pySign_natCast (r n : ℕ) :
    pySign r (n : ℤ) = if (r / n) % 2 = 0 then 1 else -1 := by
  unfold pySign
  rw [← Int.ofNat_fdiv]
  by_cases h : (r / n) % 2 = 0
  · rw [if_pos (by omega), if_pos h]
  · rw [if_neg (by omega), if_neg h]

/-- C2: for block size `L ≥ 1` and a plane of sorted rank `r` (here: the plane `pl`
preceded by exactly the planes `pre` in the ordered sequence), the sign-assignment
loop terminates without error and writes `pySign r L * M` into the slot of every atom
of that plane, where `pySign r L` is `+1` iff `(r // L) % 2 == 0`; over natural rank
and positive block size the sign equals the `if (r / L) % 2 = 0` formula, with `L = 1`
it alternates every plane, with `L = 2` every two planes, and with `L = P` all ranks
below `P` get `+1`. -/
theorem C2_block_signs (L : ℤ) (hL : 1 ≤ L) (natoms : ℕ) (M : ℚ)
    (ordered : List (ℕ × Plane)) (pre post : List Plane) (pl : Plane) (j : ℕ)
    (hsplit : ordered.map Prod.snd = pre ++ pl :: post)
    (hj : j ∈ pl.members) (hjn : j < natoms)
    (hpre : ∀ q ∈ pre, j ∉ q.members) (hpost : ∀ q ∈ post, j ∉ q.members) :
    assignMoments natoms M L ordered = .ok (momentsArray natoms M L ordered) ∧
    (momentsArray natoms M L ordered)[j]? = some (pySign pre.length L * M) ∧
    (∀ n r : ℕ, pySign r (n : ℤ) = if (r / n) % 2 = 0 then 1 else -1) ∧
    (∀ r : ℕ, pySign r 1 = if r % 2 = 0 then 1 else -1) ∧
    (∀ r : ℕ, pySign (r + 2) 2 = - pySign r 2) ∧
    (∀ r : ℕ, pySign (2 * r) 2 = pySign (2 * r + 1) 2) ∧
    (∀ P r : ℕ, r < P → pySign r (P : ℤ) = 1) := by
  refine ⟨?_, ?_, fun n r => pySign_natCast r n, ?_, ?_, ?_, ?_⟩
  · rw [assignMoments, if_neg]
    rintro ⟨h0, -⟩
    omega
  · rw [momentsArray, hsplit]
    have h1 := getElem?_momentsFrom_unique M L pre pl post 0
      (List.replicate natoms (0 : ℚ)) hj hpre hpost
      (by rw [List.length_replicate]; exact hjn)
    simpa using h1
  · intro r
    have h1 := pySign_natCast r 1
    simpa using h1
  · intro r
    have h2 := pySign_natCast (r + 2) 2
    have h3 := pySign_natCast r 2
    push_cast at h2 h3
    rw [h2, h3]
    have hdiv : (r + 2) / 2 = r / 2 + 1 := by omega
    rw [hdiv]
    by_cases h : r / 2 % 2 = 0
    · rw [if_pos h, if_neg (by omega)]
    · rw [if_neg h, if_pos (by omega)]
      norm_num
  · intro r
    have h2 := pySign_natCast (2 * r) 2
    have h3 := pySign_natCast (2 * r + 1) 2
    push_cast at h2 h3
    rw [h2, h3]
    have hd1 : 2 * r / 2 = r := by omega
    have hd2 : (2 * r + 1) / 2 = r := by omega
    rw [hd1, hd2]
  · intro P r hr
    rw [pySign_natCast r P, if_pos (by rw [Nat.div_eq_of_lt hr])]

/-- Witness for C2: on the two-plane ordered sequence with ranks 0 and 1 and `L = 1`,
the assigner succeeds and atom 1 (sole member of the rank-1 plane) receives
`pySign 1 1 * M`. -/
theorem C2_block_signs_witness :
    assignMoments 2 1 1 [(0, ⟨0, [0]⟩), (1, ⟨5, [1]⟩)]
      = .ok (momentsArray 2 1 1 [(0, ⟨0, [0]⟩), (1, ⟨5, [1]⟩)]) ∧
    (momentsArray 2 1 1 [(0, ⟨0, [0]⟩), (1, ⟨5, [1]⟩)])[1]?
      = some ((pySign 1 1 : ℚ) * 1) := by
  have h := C2_block_signs 1 (le_refl 1) 2 1 [(0, ⟨0, [0]⟩), (1, ⟨5, [1]⟩)]
    [⟨0, [0]⟩] [] ⟨5, [1]⟩ 1 rfl (by decide) (by decide) (by decide) (by decide)
  exact ⟨h.1, by simpa using h.2.1⟩

/-- C6 (code bug): the script has no zero-norm check.  For the direction `[0,0,0]`
(every component within the fractional threshold, resolved vector identically zero,
squared norm `0`) the projector still produces one projection value per atom instead
of failing: in the script `n_hat = n_cart / np.linalg.norm(n_cart)` divides by `0.0`,
numpy emits a `RuntimeWarning` with non-finite results, and execution continues to the
clustering loop and the output files — no `InvalidVectorError` (or any exception) is
raised. -/
theorem C6_zero_norm_not_an_error :
    normSq (resolve_n_cart ⟨0, 0, 0⟩ latticeA) = 0 ∧
    (projections ⟨0, 0, 0⟩ latticeA [⟨0, 0, 0⟩, ⟨1, 1, 1⟩]).length = 2 := by
  constructor
  · norm_num [resolve_n_cart, ratAbs, vecMulMat, normSq, dot, latticeA]
  · simp [projections]

/-- C7 (code bug): the script never validates `L < 1`.  With `L = -1` the sign
assignment loop runs to completion and assigns signs (Python's floor division makes
`(r // -1) % 2` behave like `L = 1`), and with `L = 0` the first loop iteration dies
with a `ZeroDivisionError` — in neither case is an `InvalidLayerCountError` raised. -/
theorem C7_no_layer_validation :
    assignMoments 2 1 (-1) [(0, ⟨0, [0]⟩), (1, ⟨5, [1]⟩)] = .ok [1, -1] ∧
    assignMoments 1 1 0 [(0, ⟨0, [0]⟩)] = .error .zeroDivisionError := by
  constructor
  · norm_num [assignMoments, momentsArray, momentsFrom, setAll,
      (by decide : pySign 0 (-1) = 1), (by decide : pySign 1 (-1) = -1),
      List.replicate, List.set]
  · simp [assignMoments]

theorem ratAbs_nonneg (q : ℚ) : 0 ≤ ratAbs q := by
  rw [ratAbs]
  split
  · linarith
  · linarith

/-- Counterexample for C8: with tolerance `0` (≤ 0) the pipeline does not fail — the
clustering loop runs and, both projections being `5`, produces two singleton planes,
because `abs(5-5) < 0` is false.  No `InvalidToleranceError` (or any exception)
exists in the script. -/
theorem C8_counterexample :
    cluster 0 [5, 5] [true, true] = [⟨5, [0]⟩, ⟨5, [1]⟩] := by
  norm_num [cluster, clusterFrom, clusterStep, firstMatch, appendAt, ratAbs]

theorem clusterFrom_nonpos_tol (tol : ℚ) (ht : tol ≤ 0) :
    ∀ (ps : List ℚ) (bs : List Bool) (i : ℕ) (acc : List Plane),
      clusterFrom tol i ps bs acc = acc ++ singletonPlanes i ps bs := by
  intro ps
  induction ps with
  | nil => intro bs i acc; cases bs <;> simp [clusterFrom, singletonPlanes]
  | cons p ps ih =>
      intro bs i acc
      cases bs with
      | nil => simp [clusterFrom, singletonPlanes]
      | cons b bs =>
          cases b with
          | false => simp [clusterFrom, singletonPlanes, ih bs (i + 1) acc]
          | true =>
              have hstep : clusterStep tol acc i p = acc ++ [{ ref := p, members := [i] }] :=
                clusterStep_of_none i (firstMatch_eq_none fun pl _ =>
                  le_trans ht (ratAbs_nonneg (p - pl.ref)))
              show clusterFrom tol (i + 1) ps bs (clusterStep tol acc i p) = _
              rw [hstep, ih bs (i + 1), singletonPlanes, List.append_assoc]
              rfl

/-- C8 amended: the script performs no tolerance validation at all (lines 173-178
only parse the float).  For any tolerance ≤ 0 the clusterer still runs; since `abs`
is nonnegative and the comparison strict, no atom ever matches an existing plane, so
every selected atom founds its own singleton plane and no error is raised. -/
theorem C8_amended_nonpos_tolerance (tol : ℚ) (ht : tol ≤ 0)
    (proj : List ℚ) (mask : List Bool) :
    cluster tol proj mask = singletonPlanes 0 proj mask := by
  simpa using clusterFrom_nonpos_tol tol ht proj mask 0 []

/-- Witness for the amended C8: at tolerance `0`, two selected atoms with equal
projections end up in two distinct singleton planes. -/
theorem C8_amended_nonpos_tolerance_witness :
    cluster 0 [5, 5] [true, true] = singletonPlanes 0 [5, 5] [true, true] :=
  C8_amended_nonpos_tolerance 0 (le_refl 0) [5, 5] [true, true]

/-- C9 (code bug): `parse_atom_selection` validates only the upper bound, and that
merely by numpy's `IndexError`.  The 1-based token `"3"` on a 2-atom structure makes
`mask[[2]] = True` raise `IndexError` (not an `InvalidSelectionError`, which exists
nowhere in the script), an in-range list such as `"1 2"` produces the expected mask —
but the out-of-range token `"0"`, the only digit token below 1, does NOT fail: it
becomes numpy index `-1` and silently selects the LAST atom. -/
theorem C9_index_validation :
    parse_atom_selection "0" ["Fe", "Ni"] = .ok [false, true] ∧
    parse_atom_selection "3" ["Fe", "Ni"] = .error .indexError ∧
    parse_atom_selection "1 2" ["Fe", "Ni"] = .ok [true, true] :=
  ⟨rfl, rfl, rfl⟩

/-- C10: whenever the whitespace-separated tokens of the selection string are not all
digit strings (and the string is not `"all"`), every token is interpreted as an
element label, so numeric tokens in a mixed list silently select no atoms; only an
all-digit token list is read as 1-based indices.  Concretely, `"1 Fe"` selects
exactly the Fe atoms (token `"1"` selects nothing), while the all-digit `"1 2"`
selects atoms 1 and 2. -/
theorem C10_mixed_tokens_are_labels (atomStr : String) (elems : List String)
    (h1 : pyLower atomStr ≠ "all") (h2 : (pySplit atomStr).all pyIsDigit = false) :
    parse_atom_selection atomStr elems
      = .ok (elems.map fun e => decide (e ∈ pySplit atomStr)) ∧
    parse_atom_selection "1 Fe" ["Fe", "Ni", "Fe"] = .ok [true, false, true] ∧
    parse_atom_selection "1 2" ["Fe", "Ni", "Fe"] = .ok [true, true, false] := by
  refine ⟨?_, rfl, rfl⟩
  rw [parse_atom_selection, if_neg h1]
  simp [h2]

/-- Witness for C10: applying the theorem to the mixed specifier `"1 Fe"` over atoms
`["Fe", "Ni"]`. -/
theorem C10_mixed_tokens_are_labels_witness :
    parse_atom_selection "1 Fe" ["Fe", "Ni"]
      = .ok (["Fe", "Ni"].map fun e => decide (e ∈ pySplit "1 Fe")) :=
  (C10_mixed_tokens_are_labels "1 Fe" ["Fe", "Ni"] (by decide) (by decide)).1
